import Mathlib

/-!
Verification of the musicview playback core.

This file shallowly embeds the data model and the operations of the
musicview repository (src/musicview/db.py, song.py, player.py,
musicview.py) and proves the specification claims about them.

Conventions of the embedding:
* SQLite REAL columns and Python floats become `ℚ`; `listen_count`
  (INT, only ever incremented from its 0 default) becomes `ℕ`.
* The catalogue (table `library`) is a `List Row` in insertion order;
  `path` is its PRIMARY KEY, so theorems that need uniqueness take a
  `Nodup` hypothesis on the mapped paths.
* SQLite's `ORDER BY RANDOM() LIMIT 1` over the minimum-count rows is
  modelled by indexing the filtered row list with an arbitrary draw
  `k` reduced modulo the list length: a uniformly distributed `k`
  induces the uniform choice the SQL makes.
* Wall-clock reads (Python `time()`) become explicit `ℚ` parameters.
* A Python exception becomes an `Except` error value.
-/

namespace Musicview

/-- One row of the `library` table, schema from `init_db` (db.py lines 93-106):
path VARCHAR PRIMARY KEY, title/genre/artist/album VARCHAR, length REAL,
favourite BOOLEAN DEFAULT 0 NOT NULL, listen_count INT DEFAULT 0. -/
structure Row where
  path : String
  title : Option String
  genre : Option String
  artist : Option String
  album : Option String
  length : ℚ
  favourite : Bool
  listen_count : ℕ
deriving DecidableEq

/-- The `MetaData` named tuple from song.py lines 28-34 (same fields in
musicview.py lines 36-47): the six non-mutable columns of a row. -/
structure MetaData where
  path : String
  title : Option String
  genre : Option String
  artist : Option String
  album : Option String
  length : ℚ
deriving DecidableEq

/-- The expression `MetaData(*next[:-2])`: the first six columns of a
fetched row. -/
def metaOf (r : Row) : MetaData :=
  ⟨r.path, r.title, r.genre, r.artist, r.album, r.length⟩

/-- The `Song.__init__` state (song.py lines 80-95): metadata, the favourite and
listen-count cache, the playback process handle (`playing_proc`, `None`
until `play`), the paused flag, `unpause_time` and `_time_played`. -/
structure Song where
  meta : MetaData
  fav : Bool
  listen_count : ℕ
  playing_proc : Option Unit
  paused : Bool
  unpause_time : ℚ
  time_played_acc : ℚ
deriving DecidableEq

/-- The constructor defaults of `Song.__init__`: `playing_proc = None`,
`paused = False`, `unpause_time = 0`, `_time_played = 0`. -/
def mkSong (m : MetaData) (fav : Bool) (listen_count : ℕ) : Song :=
  ⟨m, fav, listen_count, none, false, 0, 0⟩

/-- The `Song.__bool__` (song.py lines 97-98): the song is "playing" iff a
playback process is attached. -/
def songActive (s : Song) : Bool :=
  s.playing_proc.isSome

/-- The `Song.time_played` (song.py lines 100-108) with the wall clock `t`
passed explicitly in place of `time()`: 0 when no process is attached,
the frozen accumulator while paused, and otherwise the accumulator plus
the wall-clock delta since the last unpause. -/
def time_played (t : ℚ) (s : Song) : ℚ :=
  if s.playing_proc.isSome then
    if s.paused then s.time_played_acc
    else s.time_played_acc + (t - s.unpause_time)
  else 0

/-- The `Song.is_done` (song.py lines 110-113): strictly more than the track
length has been played. -/
def is_done (t : ℚ) (s : Song) : Prop :=
  time_played t s > s.meta.length

/-- The `Song.play` (song.py lines 129-142) at wall-clock time `t`: attaches a
playback process and records the unpause time (the external `Popen` side
effect is outside the model). -/
def play (t : ℚ) (s : Song) : Song :=
  { s with playing_proc := some (), unpause_time := t }

/-- The `Song.toggle_pause` (song.py lines 144-159) at wall-clock time `t`:
resuming records the new unpause time, pausing folds the wall-clock delta
since the last unpause into `_time_played` (the SIGCONT/SIGSTOP signals
are outside the model). -/
def toggle_pause (t : ℚ) (s : Song) : Song :=
  if s.paused then
    { s with paused := false, unpause_time := t }
  else
    { s with paused := true,
             time_played_acc := s.time_played_acc + (t - s.unpause_time) }

/-- The `Song.stop` (song.py lines 161-167): if a process is attached, kill it
and detach; otherwise do nothing. -/
def stop (s : Song) : Song :=
  if s.playing_proc.isSome then { s with playing_proc := none } else s

/-! ## Catalogue selection (db.py `next_song`, musicview.py `next_song`) -/

/-- The SQL subquery `SELECT min(listen_count) FROM library`: `none` on an
empty table. -/
def minListen? : List Row → Option ℕ
  | [] => none
  | r :: rs =>
    some (match minListen? rs with
      | none => r.listen_count
      | some m => Nat.min r.listen_count m)

/-- The minimum listen count of the catalogue (0 by convention when empty,
in which case it is never used: the selection returns no row). -/
def minListen (cat : List Row) : ℕ :=
  (minListen? cat).getD 0

/-- The SQL aggregate `max(listen_count)` (0 when empty), used to state the
fairness bound. -/
def maxListen? : List Row → Option ℕ
  | [] => none
  | r :: rs =>
    some (match maxListen? rs with
      | none => r.listen_count
      | some m => Nat.max r.listen_count m)

def maxListen (cat : List Row) : ℕ :=
  (maxListen? cat).getD 0

/-- The rows satisfying the WHERE clause
`listen_count=(SELECT min(listen_count) FROM library)`. -/
def minRows (cat : List Row) : List Row :=
  cat.filter (fun r => r.listen_count = minListen cat)

/-- The `SELECT ... ORDER BY RANDOM() LIMIT 1` followed by `fetchone`: a
uniformly random row among `minRows`, modelled by a draw `k` reduced
modulo their number ( `none` — Python `None` — on an empty catalogue). -/
def selectMin (cat : List Row) (k : ℕ) : Option Row :=
  (minRows cat).get? (k % (minRows cat).length)

/-- The per-row effect of
`UPDATE library SET listen_count = listen_count + 1 WHERE path=?`. -/
def incRow (p : String) (r : Row) : Row :=
  if r.path = p then { r with listen_count := r.listen_count + 1 } else r

/-- The catalogue after the listen-count UPDATE of db.py lines 145-151. -/
def incListen (cat : List Row) (p : String) : List Row :=
  cat.map (incRow p)

/-- Errors the selection can produce in the embedding. `typeError` models
the `TypeError` Python raises at `next[0]` when `fetchone` has returned
`None` on an empty catalogue (db.py line 150, musicview.py line 281).
`emptyCatalogue` is the dedicated error named by the spec; it is included
here only so the two can be compared — no code path produces it. -/
inductive PyError
  | typeError
  | emptyCatalogue
deriving DecidableEq

/-- The `next_song` of db.py lines 126-153: select a uniformly random
minimum-count row, increment that row's `listen_count`, and return
`Song(MetaData(*next[:-2]), bool(next[-2]), next[-1] + 1)` — note the
returned `Song` carries the fetched count PLUS ONE. The updated catalogue
is returned alongside, standing for the committed store. -/
def db_next_song (cat : List Row) (k : ℕ) : Except PyError (List Row × Song) :=
  match selectMin cat k with
  | none => .error .typeError
  | some r =>
    .ok (incListen cat r.path, mkSong (metaOf r) r.favourite (r.listen_count + 1))

/-- The `next_song` of musicview.py lines 259-285: same SELECT and UPDATE, but
it returns `MetaData(*next[:-2]), next[-2:]` — the favourite flag and the
PRE-increment listen count as fetched. -/
def mv_next_song (cat : List Row) (k : ℕ) :
    Except PyError (List Row × (MetaData × Bool × ℕ)) :=
  match selectMin cat k with
  | none => .error .typeError
  | some r =>
    .ok (incListen cat r.path, (metaOf r, r.favourite, r.listen_count))

/-- The `self.cur_count += 1` in `Player.start` (player.py line 145,
musicview.py line 351): the caller bumps the count it received before
displaying `Play count: {self.cur_count}`. -/
def playerStartCount (received : ℕ) : ℕ :=
  received + 1

/-! ## Favourite writes (song.py `toggle_favourite`, player.py `favourite`) -/

/-- Per-row effect of `UPDATE library SET favourite=? WHERE path=?`. -/
def setFavRow (p : String) (v : Bool) (r : Row) : Row :=
  if r.path = p then { r with favourite := v } else r

/-- The favourite UPDATE over the whole catalogue. -/
def setFavourite (cat : List Row) (p : String) (v : Bool) : List Row :=
  cat.map (setFavRow p v)

/-- The `Song.toggle_favourite` (song.py lines 115-127): negate the in-memory
cache, then write the new cache value to the store for this song's path. -/
def toggle_favourite (s : Song) (cat : List Row) : Song × List Row :=
  let f := !s.fav
  ({ s with fav := f }, setFavourite cat s.meta.path f)

/-- The `Player.favourite` (player.py lines 153-166): write the negation of the
cached `cur_fav` for the current path, then negate the cache. Returns the
new cache and store. -/
def player_favourite (cur_fav : Bool) (p : String) (cat : List Row) :
    Bool × List Row :=
  (!cur_fav, setFavourite cat p (!cur_fav))

/-- The favourite value the store holds for a path (`None` if absent). -/
def getFav (cat : List Row) (p : String) : Option Bool :=
  (cat.find? (fun r => r.path = p)).map (·.favourite)

/-! ## Ingestion (song.py `MetaData.from_path`, db.py `update_db`) -/

/-- Python truthiness of an optional float: `None`, `0` and `0.0` are
falsy. -/
def pyTruthy : Option ℚ → Bool
  | none => false
  | some q => decide (q ≠ 0)

/-- Modelled from the spec: `get_ffmpeg_duration` is imported from
`.misc` in song.py but absent from the source tree. Per the spec, the
transcoder's textual diagnostic output is parsed for an
`HH:MM:SS[.fraction]` duration field; we model the probe on the parsed
fields (`none` when no such field is found), converting to seconds. -/
def get_ffmpeg_duration (parsed : Option (ℕ × ℕ × ℕ × ℚ)) : Option ℚ :=
  parsed.map (fun q => (q.1 * 3600 + q.2.1 * 60 + q.2.2.1 : ℚ) + q.2.2.2)

/-- The `MetaData.from_path` (song.py lines 36-58) with the external probes as
inputs: `tags` present or not, its `info.length`, the four string tags,
and the ffmpeg fallback result. Mirrors
`length = tags.info.length if tags else None`,
`length = length or get_ffmpeg_duration(ffmpeg, path)`,
`return cls(path, title, genre, artist, album, length) if length else None`. -/
def from_path (path : String) (tagsPresent : Bool) (infoLength : ℚ)
    (title genre artist album : Option String)
    (ffmpegResult : Option ℚ) : Option MetaData :=
  match (if pyTruthy (if tagsPresent then some infoLength else none)
      then (if tagsPresent then some infoLength else none)
      else ffmpegResult) with
  | none => none
  | some q =>
    if q = 0 then none
    else some ⟨path, title, genre, artist, album, q⟩

/-- Per-row effect of the `update_db` UPDATE branch (db.py lines 66-76):
`UPDATE library SET title=?, genre=?, artist=?, album=?, length=?
WHERE path=?`. -/
def updRow (m : MetaData) (r : Row) : Row :=
  if r.path = m.path then
    { r with title := m.title, genre := m.genre, artist := m.artist,
             album := m.album, length := m.length }
  else r

/-- The INSERT branch (db.py lines 59-64): only the six metadata columns
are supplied, so `favourite` takes its DEFAULT 0 and `listen_count` its
DEFAULT 0. -/
def newRow (m : MetaData) : Row :=
  ⟨m.path, m.title, m.genre, m.artist, m.album, m.length, false, 0⟩

/-- One iteration of the `update_db` song loop (db.py lines 52-76): skip
the song when `MetaData.from_path` returned `None`; otherwise UPDATE the
existing row for the path, or INSERT a fresh one. -/
def updateDbStep (cat : List Row) (md : Option MetaData) : List Row :=
  match md with
  | none => cat
  | some m =>
    if cat.any (fun r => r.path = m.path) then cat.map (updRow m)
    else cat ++ [newRow m]

/-! ## The progress loop and skip (player.py `progress`, `play_next`, `ui`) -/

/-- The per-track state the progress thread drives (player.py): the
tick-accumulated `time_elapsed`, whether `playing_proc` is still alive,
and a ghost counter of auto-advance firings used to state
"at most once per track". -/
structure Prog where
  time_elapsed : ℕ
  alive : Bool
  fired : ℕ
deriving DecidableEq

/-- The `Player.play_next` (player.py lines 109-113): `self.playing_proc.kill()`
— the one action both a manual skip and the auto-advance invoke. -/
def play_next (s : Prog) : Prog :=
  { s with alive := false }

/-- The four command values of the `ui` keymap (player.py line 77). -/
inductive Command
  | play
  | skip
  | favourite
  | quit
deriving DecidableEq

/-- The `keymap = {'p': 'play', '>': 'skip', 'f': 'favourite', 'q': 'quit'}`
(player.py line 77). -/
def keymap : Char → Option Command
  | 'p' => some .play
  | '>' => some .skip
  | 'f' => some .favourite
  | 'q' => some .quit
  | _ => none

/-- The effect of one dispatched `ui` command on the playback-process
state (player.py lines 79-91). Only `skip` touches the process through
`play_next`; the other commands act on state outside `Prog`. -/
def uiDispatch : Command → Prog → Prog
  | .skip, s => play_next s
  | _, s => s

/-- One unpaused iteration of `Player.progress` (player.py lines 97-107)
for the current track of duration `len`: `sleep(1); self.time_elapsed += 1;
if self.time_elapsed > self.cur_song.length: self.play_next()`. Once the
process has been killed the track is over, so later iterations belong to
the next track and leave this state alone; the ghost `fired` counts the
auto-advance triggers of this track. -/
def progressTick (len : ℚ) (s : Prog) : Prog :=
  if s.alive then
    let s' := { s with time_elapsed := s.time_elapsed + 1 }
    if (s'.time_elapsed : ℚ) > len then
      play_next { s' with fired := s'.fired + 1 }
    else s'
  else s

/-- The progress loop after `n` unpaused one-second ticks on a fresh track
(`time_elapsed` was reset to 0 by `Player.start` line 142). -/
def progressRun (len : ℚ) : ℕ → Prog
  | 0 => ⟨0, true, 0⟩
  | n + 1 => progressTick len (progressRun len n)

/-! ## Repeated selection (C2) -/

/-- The catalogue after a sequence of `next_song` selections with the
given random draws; a failing selection (empty catalogue) leaves the
store untouched, as the transaction never commits. -/
def selectFold (cat : List Row) (ks : List ℕ) : List Row :=
  ks.foldl
    (fun c k =>
      match db_next_song c k with
      | .ok out => out.1
      | .error _ => c)
    cat

/-! ## Concrete rows used by the witnesses -/

def rowA : Row := ⟨"a", some "A", none, none, none, 5, false, 0⟩

def rowB : Row := ⟨"b", none, none, none, none, 3, true, 0⟩

def rowC : Row := ⟨"c", none, none, none, none, 4, false, 2⟩

def catAB : List Row := [rowA, rowB]

def catABC : List Row := [rowA, rowB, rowC]

/-! ### Basic facts about the minimum -/

theorem minListen?_isSome {cat : List Row} (h : cat ≠ []) :
    (minListen? cat).isSome := by
  cases cat with
  | nil => exact absurd rfl h
  | cons r rs => simp [minListen?]

theorem minListen_cons (x : Row) (xs : List Row) :
    minListen (x :: xs) =
      match minListen? xs with
      | none => x.listen_count
      | some m => Nat.min x.listen_count m := by
  simp [minListen, minListen?]

theorem maxListen_cons (x : Row) (xs : List Row) :
    maxListen (x :: xs) =
      match maxListen? xs with
      | none => x.listen_count
      | some m => Nat.max x.listen_count m := by
  simp [maxListen, maxListen?]

theorem minListen_le_of_mem {cat : List Row} {r : Row} (h : r ∈ cat) :
    minListen cat ≤ r.listen_count := by
  induction cat with
  | nil => cases h
  | cons x xs ih =>
    rw [minListen_cons]
    cases hm : minListen? xs with
    | none =>
      have hxs : xs = [] := by
        cases xs with
        | nil => rfl
        | cons y ys => simp [minListen?] at hm
      subst hxs
      simp at h
      simp [h]
    | some m =>
      rcases List.mem_cons.mp h with hx | hx
      · subst hx
        simp [Nat.min_le_left]
      · have hle := ih hx
        have : minListen xs = m := by simp [minListen, hm]
        rw [this] at hle
        simp only []
        exact le_trans (Nat.min_le_right _ _) hle

theorem exists_minListen_mem {cat : List Row} (h : cat ≠ []) :
    ∃ r ∈ cat, r.listen_count = minListen cat := by
  induction cat with
  | nil => exact absurd rfl h
  | cons x xs ih =>
    rw [minListen_cons]
    cases hm : minListen? xs with
    | none => exact ⟨x, List.mem_cons_self x xs, by simp⟩
    | some m =>
      have hxs : xs ≠ [] := by
        intro hh
        subst hh
        simp [minListen?] at hm
      obtain ⟨r, hr, hrc⟩ := ih hxs
      have hrm : r.listen_count = m := by
        rw [hrc]
        simp [minListen, hm]
      rcases Nat.le_total x.listen_count m with hle | hle
      · exact ⟨x, List.mem_cons_self x xs,
          by simp [Nat.min_eq_left hle]⟩
      · exact ⟨r, List.mem_cons_of_mem x hr,
          by simp [hrm, Nat.min_eq_right hle]⟩

theorem le_maxListen_of_mem {cat : List Row} {r : Row} (h : r ∈ cat) :
    r.listen_count ≤ maxListen cat := by
  induction cat with
  | nil => cases h
  | cons x xs ih =>
    rw [maxListen_cons]
    cases hm : maxListen? xs with
    | none =>
      have hxs : xs = [] := by
        cases xs with
        | nil => rfl
        | cons y ys => simp [maxListen?] at hm
      subst hxs
      simp at h
      simp [h]
    | some m =>
      rcases List.mem_cons.mp h with hx | hx
      · subst hx
        simp [Nat.le_max_left]
      · have hle := ih hx
        have : maxListen xs = m := by simp [maxListen, hm]
        rw [this] at hle
        simp only []
        exact le_trans hle (Nat.le_max_right _ _)

theorem exists_maxListen_mem {cat : List Row} (h : cat ≠ []) :
    ∃ r ∈ cat, r.listen_count = maxListen cat := by
  induction cat with
  | nil => exact absurd rfl h
  | cons x xs ih =>
    rw [maxListen_cons]
    cases hm : maxListen? xs with
    | none => exact ⟨x, List.mem_cons_self x xs, by simp⟩
    | some m =>
      have hxs : xs ≠ [] := by
        intro hh
        subst hh
        simp [maxListen?] at hm
      obtain ⟨r, hr, hrc⟩ := ih hxs
      have hrm : r.listen_count = m := by
        rw [hrc]
        simp [maxListen, hm]
      rcases Nat.le_total x.listen_count m with hle | hle
      · exact ⟨r, List.mem_cons_of_mem x hr,
          by simp [hrm, Nat.max_eq_right hle]⟩
      · exact ⟨x, List.mem_cons_self x xs,
          by simp [Nat.max_eq_left hle]⟩

theorem minRows_ne_nil {cat : List Row} (h : cat ≠ []) :
    minRows cat ≠ [] := by
  obtain ⟨r, hr, hrc⟩ := exists_minListen_mem h
  intro hnil
  have : r ∈ minRows cat := by
    unfold minRows
    rw [List.mem_filter]
    exact ⟨hr, by simp [hrc]⟩
  rw [hnil] at this
  cases this

theorem selectMin_isSome {cat : List Row} (h : cat ≠ []) (k : ℕ) :
    ∃ r, selectMin cat k = some r ∧ r ∈ minRows cat := by
  have hne := minRows_ne_nil h
  have hpos : 0 < (minRows cat).length := List.length_pos.mpr hne
  have hlt : k % (minRows cat).length < (minRows cat).length :=
    Nat.mod_lt _ hpos
  unfold selectMin
  rw [List.get?_eq_get hlt]
  exact ⟨_, rfl, List.get_mem _ _ _⟩

/-- Auxiliary: maps that agree on the members of a list agree on the list. -/
theorem map_ext_mem {α β : Type} {f g : α → β} {l : List α}
    (h : ∀ x ∈ l, f x = g x) : l.map f = l.map g := by
  induction l with
  | nil => rfl
  | cons x xs ih =>
    rw [List.map_cons, List.map_cons, h x (List.mem_cons_self x xs),
      ih (fun y hy => h y (List.mem_cons_of_mem x hy))]

/-- Auxiliary: a map that fixes every element of a list is the identity. -/
theorem map_fix_eq {α : Type} {f : α → α} {l : List α}
    (h : ∀ x ∈ l, f x = x) : l.map f = l := by
  induction l with
  | nil => rfl
  | cons x xs ih =>
    rw [List.map_cons, h x (List.mem_cons_self x xs),
      ih (fun y hy => h y (List.mem_cons_of_mem x hy))]

/-- C6 (amended): on an empty catalogue `next_song` fails — but with the
generic `TypeError` from subscripting the `None` that `fetchone` returned,
not a dedicated `EmptyCatalogue` error (no such error exists in the code);
the uncaught exception is fatal to the session. On every non-empty
catalogue the selection succeeds, so the failure is unreachable. -/
theorem C6_empty_catalogue_type_error :
    (∀ k, db_next_song [] k = .error .typeError) ∧
    (∀ (cat : List Row) (k : ℕ), cat ≠ [] →
      ∃ out, db_next_song cat k = .ok out) := by
  constructor
  · intro k
    rfl
  · intro cat k h
    obtain ⟨r, hr, _⟩ := selectMin_isSome h k
    exact ⟨(incListen cat r.path, mkSong (metaOf r) r.favourite (r.listen_count + 1)),
      by unfold db_next_song; rw [hr]⟩

/-- Witness for C6: on the concrete two-row catalogue the selection
succeeds. -/
theorem C6_empty_catalogue_type_error_witness :
    catAB ≠ [] ∧ ∃ out, db_next_song catAB 0 = .ok out :=
  ⟨by decide, C6_empty_catalogue_type_error.2 catAB 0 (by decide)⟩

/-- C6 counterexample: at the concrete empty catalogue, `next_song` does
not fail with the dedicated `EmptyCatalogue` error the claim names — it
fails with the `TypeError` of subscripting `None`. -/
theorem C6_counterexample :
    db_next_song [] 0 = .error .typeError ∧
    (Except.error PyError.typeError : Except PyError (List Row × Song)) ≠
      Except.error PyError.emptyCatalogue := by
  refine ⟨rfl, ?_⟩
  intro h
  have := Except.error.inj h
  cases this

/-- C5: evaluation of the selection at a concrete one-row catalogue
(path "a", stored `listen_count` 0). db.py's `next_song` commits the
increment (stored count becomes 1) and returns a `Song` carrying
`next[-1] + 1 = 1` — the POST-increment count, not the pre-increment
snapshot 0 the claim describes; musicview.py's `next_song` is the one
that returns the pre-increment snapshot 0. `Player.start` (player.py
line 145) still adds one to what it receives, so pairing it with db.py's
value displays 2 while the store holds 1. -/
theorem C5_db_next_song_returns_post_increment :
    db_next_song [rowA] 0 =
      .ok ([{ rowA with listen_count := 1 }],
        mkSong (metaOf rowA) false 1) ∧
    mv_next_song [rowA] 0 =
      .ok ([{ rowA with listen_count := 1 }], (metaOf rowA, false, 0)) ∧
    playerStartCount 1 = 2 ∧
    (∀ r ∈ incListen [rowA] rowA.path, r.listen_count = 1) ∧
    (1 : ℕ) ≠ 0 := by
  refine ⟨rfl, rfl, rfl, ?_, by decide⟩
  intro r hr
  simp [incListen, incRow, rowA] at hr
  simp [hr]

/-- C10: `time_played` is 0 whenever no playback process is attached — in
particular on a freshly constructed `Song` and after `stop` — and `stop`
is idempotent, leaving the song in the same not-playing state. -/
theorem C10_time_played_zero_and_stop_idempotent :
    (∀ (m : MetaData) (fav : Bool) (c : ℕ) (t : ℚ),
      time_played t (mkSong m fav c) = 0) ∧
    (∀ (s : Song) (t : ℚ), time_played t (stop s) = 0) ∧
    (∀ s : Song, (stop s).playing_proc = none) ∧
    (∀ s : Song, stop (stop s) = stop s) := by
  refine ⟨fun m fav c t => rfl, fun s t => ?_, fun s => ?_, fun s => ?_⟩
  · unfold time_played stop
    cases h : s.playing_proc <;> simp [h]
  · unfold stop
    cases h : s.playing_proc <;> simp [h]
  · unfold stop
    cases h : s.playing_proc <;> simp [h]

/-- C3: elapsed playing time is wall-clock-accumulated only while unpaused.
For any playing, paused song, resuming at `t₂` and querying at `t₃` yields
the accumulated time before the last pause plus the wall-clock delta since
the resume; and on the concrete trace play `t₀`, pause `t₁`, resume `t₂`,
query `t₃`, the pause interval `t₂ - t₁` is excluded:
the elapsed time is `(t₁ - t₀) + (t₃ - t₂) = (t₃ - t₀) - (t₂ - t₁)`. -/
theorem C3_elapsed_time_excludes_pause :
    (∀ (s : Song) (t₂ t₃ : ℚ), songActive s = true → s.paused = true →
      time_played t₃ (toggle_pause t₂ s) = s.time_played_acc + (t₃ - t₂)) ∧
    (∀ (m : MetaData) (fav : Bool) (c : ℕ) (t₀ t₁ t₂ t₃ : ℚ),
      time_played t₃ (toggle_pause t₂ (toggle_pause t₁ (play t₀ (mkSong m fav c))))
        = (t₁ - t₀) + (t₃ - t₂) ∧
      time_played t₃ (toggle_pause t₂ (toggle_pause t₁ (play t₀ (mkSong m fav c))))
        + (t₂ - t₁) = t₃ - t₀) := by
  constructor
  · intro s t₂ t₃ hact hp
    unfold songActive at hact
    unfold toggle_pause time_played
    simp [hp, Option.isSome_iff_exists] at hact ⊢
    obtain ⟨u, hu⟩ := hact
    simp [hu]
  · intro m fav c t₀ t₁ t₂ t₃
    constructor
    · unfold mkSong play toggle_pause time_played
      norm_num
    · unfold mkSong play toggle_pause time_played
      norm_num
      ring

/-- Witness for C3 at concrete times: play at 0, pause at 3, resume at 10,
query at 12 — elapsed is 5, excluding the 7-second pause; the paused song
at time 3 is active and paused with 3 seconds accumulated, so the general
resume law applies to it. -/
theorem C3_elapsed_time_excludes_pause_witness :
    (time_played 12 (toggle_pause 10 (toggle_pause 3 (play 0
      (mkSong ⟨"a", none, none, none, none, 5⟩ false 0)))) = 5) ∧
    (songActive (toggle_pause 3 (play 0
      (mkSong ⟨"a", none, none, none, none, 5⟩ false 0))) = true ∧
     (toggle_pause 3 (play 0
      (mkSong ⟨"a", none, none, none, none, 5⟩ false 0))).paused = true ∧
     time_played 12 (toggle_pause 10 (toggle_pause 3 (play 0
      (mkSong ⟨"a", none, none, none, none, 5⟩ false 0)))) =
       (toggle_pause 3 (play 0
         (mkSong ⟨"a", none, none, none, none, 5⟩ false 0))).time_played_acc
         + (12 - 10)) := by
  constructor
  · have h := (C3_elapsed_time_excludes_pause.2
      ⟨"a", none, none, none, none, 5⟩ false 0 0 3 10 12).1
    rw [h]
    norm_num
  · exact ⟨rfl, rfl,
      C3_elapsed_time_excludes_pause.1
        (toggle_pause 3 (play 0 (mkSong ⟨"a", none, none, none, none, 5⟩
          false 0))) 10 12 rfl rfl⟩

/-- Membership in `minRows` unpacked. -/
theorem mem_minRows {cat : List Row} {r : Row} (h : r ∈ minRows cat) :
    r ∈ cat ∧ r.listen_count = minListen cat := by
  unfold minRows at h
  rw [List.mem_filter] at h
  exact ⟨h.1, by simpa using h.2⟩

/-- The min-row list inherits path-nodupness from the catalogue. -/
theorem minRows_nodup {cat : List Row}
    (hnd : (cat.map Row.path).Nodup) : (minRows cat).Nodup := by
  have hsub : List.Sublist ((minRows cat).map Row.path) (cat.map Row.path) :=
    (List.filter_sublist cat).map Row.path
  exact (hnd.sublist hsub).of_map

/-- C1: on every non-empty catalogue with unique paths, `next_song` picks a
record from exactly the set of minimum-`listen_count` records — the draw
index is in bijection with that set, so a uniform draw picks uniformly —
and the accompanying UPDATE increments exactly the picked record's
`listen_count`, leaving every other record unchanged (the catalogue
splits as `pre ++ picked :: post` with only `picked` replaced). -/
theorem C1_selection_uniform_min_and_increment (cat : List Row)
    (hne : cat ≠ []) (hnd : (cat.map Row.path).Nodup) :
    (∀ k, ∃ r, selectMin cat k = some r ∧ r ∈ cat ∧
      r.listen_count = minListen cat ∧
      ∃ pre post, cat = pre ++ r :: post ∧
        incListen cat r.path =
          pre ++ { r with listen_count := r.listen_count + 1 } :: post) ∧
    (∀ r ∈ minRows cat,
      ∃ k, k < (minRows cat).length ∧ selectMin cat k = some r) ∧
    (∀ k₁ k₂, k₁ < (minRows cat).length → k₂ < (minRows cat).length →
      selectMin cat k₁ = selectMin cat k₂ → k₁ = k₂) := by
  refine ⟨?_, ?_, ?_⟩
  · intro k
    obtain ⟨r, hsel, hrm⟩ := selectMin_isSome hne k
    obtain ⟨hrc, hrmin⟩ := mem_minRows hrm
    obtain ⟨pre, post, hsplit⟩ := List.append_of_mem hrc
    refine ⟨r, hsel, hrc, hrmin, pre, post, hsplit, ?_⟩
    have hpaths : (pre.map Row.path ++ r.path :: post.map Row.path).Nodup := by
      have := hnd
      rw [hsplit] at this
      simpa using this
    rw [List.nodup_append] at hpaths
    have hnotpre : r.path ∉ pre.map Row.path := fun hmem =>
      hpaths.2.2 hmem (List.mem_cons_self _ _)
    have hnotpost : r.path ∉ post.map Row.path := by
      have := hpaths.2.1
      rw [List.nodup_cons] at this
      exact this.1
    unfold incListen
    rw [hsplit, List.map_append, List.map_cons]
    congr 1
    · apply map_fix_eq
      intro x hx
      unfold incRow
      have : x.path ≠ r.path := fun he =>
        hnotpre (he ▸ List.mem_map_of_mem Row.path hx)
      simp [this]
    · congr 1
      · unfold incRow
        simp
      · apply map_fix_eq
        intro x hx
        unfold incRow
        have : x.path ≠ r.path := fun he =>
          hnotpost (he ▸ List.mem_map_of_mem Row.path hx)
        simp [this]
  · intro r hr
    obtain ⟨i, hi⟩ := List.get_of_mem hr
    refine ⟨i.1, i.2, ?_⟩
    unfold selectMin
    rw [Nat.mod_eq_of_lt i.2, List.get?_eq_get i.2]
    exact congrArg some hi
  · intro k₁ k₂ h₁ h₂ heq
    have hnd' := minRows_nodup hnd
    unfold selectMin at heq
    rw [Nat.mod_eq_of_lt h₁, Nat.mod_eq_of_lt h₂,
      List.get?_eq_get h₁, List.get?_eq_get h₂] at heq
    have := Option.some.inj heq
    have hfin : (⟨k₁, h₁⟩ : Fin (minRows cat).length) = ⟨k₂, h₂⟩ :=
      (List.Nodup.get_inj_iff hnd').mp this
    exact Fin.mk.inj_iff.mp hfin

/-- Witness for C1 on the concrete catalogue `[rowA, rowB]` (both at
listen count 0), with draw 1: a minimum row is selected and exactly it is
incremented. -/
theorem C1_selection_uniform_min_and_increment_witness :
    catAB ≠ [] ∧ (catAB.map Row.path).Nodup ∧
    (∃ r, selectMin catAB 1 = some r ∧ r ∈ catAB ∧
      r.listen_count = minListen catAB ∧
      ∃ pre post, catAB = pre ++ r :: post ∧
        incListen catAB r.path =
          pre ++ { r with listen_count := r.listen_count + 1 } :: post) ∧
    (rowA ∈ minRows catAB ∧
      ∃ k, k < (minRows catAB).length ∧ selectMin catAB k = some rowA) ∧
    (0 < (minRows catAB).length ∧ (0 : ℕ) = 0) :=
  ⟨by decide, by decide,
    (C1_selection_uniform_min_and_increment catAB (by decide) (by decide)).1 1,
    ⟨by decide,
      (C1_selection_uniform_min_and_increment catAB (by decide)
        (by decide)).2.1 rowA (by decide)⟩,
    by decide,
    (C1_selection_uniform_min_and_increment catAB (by decide)
      (by decide)).2.2 0 0 (by decide) (by decide) rfl⟩

/-! ### Fairness (C2) -/

theorem incRow_path (p : String) (r : Row) : (incRow p r).path = r.path := by
  unfold incRow
  split <;> rfl

theorem incRow_count_ge (p : String) (r : Row) :
    r.listen_count ≤ (incRow p r).listen_count := by
  unfold incRow
  split <;> simp

theorem incListen_path_map (cat : List Row) (p : String) :
    (incListen cat p).map Row.path = cat.map Row.path := by
  unfold incListen
  rw [List.map_map]
  apply map_ext_mem
  intro x _
  exact incRow_path p x

theorem incListen_ne_nil {cat : List Row} (h : cat ≠ []) (p : String) :
    incListen cat p ≠ [] := by
  unfold incListen
  simpa using h

theorem minListen_incListen_ge {cat : List Row} (h : cat ≠ []) (p : String) :
    minListen cat ≤ minListen (incListen cat p) := by
  obtain ⟨r', hr', hc'⟩ := exists_minListen_mem (incListen_ne_nil h p)
  obtain ⟨r, hr, hmap⟩ := List.mem_map.mp hr'
  calc minListen cat ≤ r.listen_count := minListen_le_of_mem hr
    _ ≤ (incRow p r).listen_count := incRow_count_ge p r
    _ = minListen (incListen cat p) := by rw [hmap]; exact hc'

/-- The fairness invariant: every record is within one play of the
catalogue minimum. -/
def Bound (cat : List Row) : Prop :=
  ∀ r ∈ cat, r.listen_count ≤ minListen cat + 1

/-- One committed selection preserves the fairness invariant. -/
theorem bound_step {cat : List Row} (hne : cat ≠ [])
    (hnd : (cat.map Row.path).Nodup) {r₀ : Row} (hr₀ : r₀ ∈ cat)
    (hmin : r₀.listen_count = minListen cat) (hB : Bound cat) :
    Bound (incListen cat r₀.path) := by
  intro r' hr'
  obtain ⟨r, hr, hmap⟩ := List.mem_map.mp hr'
  have hmge := minListen_incListen_ge hne r₀.path
  by_cases hp : r.path = r₀.path
  · have hrr : r = r₀ := List.inj_on_of_nodup_map hnd hr hr₀ hp
    subst hrr
    rw [← hmap]
    have hcount : (incRow r.path r).listen_count = r.listen_count + 1 := by
      unfold incRow
      rw [if_pos rfl]
    rw [hcount, hmin]
    omega
  · rw [← hmap]
    have hcount : (incRow r₀.path r).listen_count = r.listen_count := by
      unfold incRow
      rw [if_neg hp]
    rw [hcount]
    have := hB r hr
    omega

/-- The fold over any draw sequence preserves nonemptiness, path
uniqueness and the fairness invariant. -/
theorem selectFold_inv (ks : List ℕ) :
    ∀ cat : List Row, cat ≠ [] → (cat.map Row.path).Nodup → Bound cat →
      selectFold cat ks ≠ [] ∧
      ((selectFold cat ks).map Row.path).Nodup ∧
      Bound (selectFold cat ks) := by
  induction ks with
  | nil => exact fun cat h1 h2 h3 => ⟨h1, h2, h3⟩
  | cons k ks ih =>
    intro cat h1 h2 h3
    obtain ⟨r, hsel, hrm⟩ := selectMin_isSome h1 k
    obtain ⟨hrc, hrmin⟩ := mem_minRows hrm
    have hstep : selectFold cat (k :: ks) = selectFold (incListen cat r.path) ks := by
      unfold selectFold
      rw [List.foldl_cons]
      unfold db_next_song
      rw [hsel]
    rw [hstep]
    exact ih (incListen cat r.path) (incListen_ne_nil h1 r.path)
      (by rw [incListen_path_map]; exact h2)
      (bound_step h1 h2 hrc hrmin h3)

/-- C2: starting from a catalogue (unique paths) in which all listen
counts are equal, after any sequence of consecutive `next_song`
selections and no other writes, the maximum listen count minus the
minimum listen count never exceeds 1. Proved for every draw sequence of
every length, which in particular covers every N ≥ catalogue size. -/
theorem C2_fairness_max_minus_min_le_one (cat : List Row)
    (hne : cat ≠ []) (hnd : (cat.map Row.path).Nodup)
    (heq : ∀ r₁ ∈ cat, ∀ r₂ ∈ cat, r₁.listen_count = r₂.listen_count) :
    ∀ ks : List ℕ,
      maxListen (selectFold cat ks) - minListen (selectFold cat ks) ≤ 1 := by
  intro ks
  have hB : Bound cat := by
    intro r hr
    obtain ⟨r₀, hr₀, hc₀⟩ := exists_minListen_mem hne
    have := heq r hr r₀ hr₀
    omega
  obtain ⟨hne', _, hB'⟩ := selectFold_inv ks cat hne hnd hB
  obtain ⟨rM, hrM, hcM⟩ := exists_maxListen_mem hne'
  have := hB' rM hrM
  omega

/-- Witness for C2: three selections on the concrete two-row catalogue
keep the spread within 1. -/
theorem C2_fairness_max_minus_min_le_one_witness :
    maxListen (selectFold catAB [0, 1, 0]) -
      minListen (selectFold catAB [0, 1, 0]) ≤ 1 :=
  C2_fairness_max_minus_min_le_one catAB (by decide) (by decide)
    (by decide) [0, 1, 0]

/-! ### Auto-advance (C4) -/

/-- Once the process is dead, further progress iterations belong to the
next track and leave this state alone. -/
theorem progressTick_dead {len : ℚ} {s : Prog} (h : s.alive = false) :
    progressTick len s = s := by
  unfold progressTick
  rw [h]
  simp

theorem progressRun_succ (len : ℚ) (n : ℕ) :
    progressRun len (n + 1) = progressTick len (progressRun len n) := rfl

/-- The per-track invariant behind "at most once": while alive the
trigger has never fired, and it never fires twice. -/
theorem progressRun_fired_inv (len : ℚ) (n : ℕ) :
    ((progressRun len n).alive = true → (progressRun len n).fired = 0) ∧
    (progressRun len n).fired ≤ 1 := by
  induction n with
  | zero => exact ⟨fun _ => rfl, by simp [progressRun]⟩
  | succ n ih =>
    rw [progressRun_succ]
    cases ha : (progressRun len n).alive with
    | false => rw [progressTick_dead ha]; exact ⟨fun h => ih.1 (ha ▸ h), ih.2⟩
    | true =>
      have h0 := ih.1 ha
      unfold progressTick
      rw [ha]
      simp only [if_true]
      split
      · unfold play_next
        exact ⟨fun h => by simp at h, by simp [h0]⟩
      · exact ⟨fun _ => h0, by simp [h0]⟩

/-- The exact per-track timeline of the progress loop for a track of
nonnegative duration `len`: while `n ≤ len` nothing has fired and the
track is still playing with `time_elapsed = n`; as soon as `n > len`, the
trigger has fired exactly once and the process is dead. -/
theorem progressRun_timeline {len : ℚ} (hlen : 0 ≤ len) (n : ℕ) :
    ((n : ℚ) ≤ len → progressRun len n = ⟨n, true, 0⟩) ∧
    ((n : ℚ) > len →
      (progressRun len n).fired = 1 ∧ (progressRun len n).alive = false) := by
  induction n with
  | zero =>
    refine ⟨fun _ => rfl, fun h => absurd hlen (by push_cast at h; linarith)⟩
  | succ n ih =>
    constructor
    · intro h
      have hn : (n : ℚ) ≤ len := by push_cast at h ⊢; linarith
      rw [progressRun_succ, ih.1 hn]
      unfold progressTick
      simp only [if_true]
      have hngt : ¬ ((((n : ℕ) + 1 : ℕ) : ℚ) > len) := by
        push_cast at h ⊢; linarith
      split
      · exact absurd (by assumption) hngt
      · rfl
    · intro h
      rw [progressRun_succ]
      by_cases hn : (n : ℚ) ≤ len
      · rw [ih.1 hn]
        unfold progressTick
        simp only [if_true]
        have hgt : ((((n : ℕ) + 1 : ℕ) : ℚ) > len) := by
          push_cast at h ⊢; linarith
        split
        · exact ⟨rfl, rfl⟩
        · exact absurd hgt (by assumption)
      · have hgt : (n : ℚ) > len := lt_of_not_le hn
        obtain ⟨hf, hal⟩ := ih.2 hgt
        rw [progressTick_dead hal]
        exact ⟨hf, hal⟩

/-- C4: the auto-advance trigger fires exactly when the elapsed time
STRICTLY exceeds the track duration (`>`, not `≥`; `Song.is_done` is
false at `time_played = length` exactly), the action it invokes is the
very operation the user-initiated skip key invokes (`play_next`, killing
the playback process), and per track it fires at most once — indeed, for
a nonnegative duration, exactly once, at the first whole second past the
duration. -/
theorem C4_auto_advance_strict_once_same_as_skip (len : ℚ) :
    (∀ s : Prog, s.alive = true →
      ((progressTick len s).fired = s.fired + 1 ↔
        ((s.time_elapsed + 1 : ℕ) : ℚ) > len)) ∧
    (∀ s : Prog, s.alive = true → ((s.time_elapsed + 1 : ℕ) : ℚ) > len →
      progressTick len s =
        play_next { s with time_elapsed := s.time_elapsed + 1,
                           fired := s.fired + 1 }) ∧
    (∀ s : Prog, uiDispatch Command.skip s = play_next s) ∧
    keymap '>' = some Command.skip ∧
    (∀ t : ℚ, ∀ s : Song, time_played t s = s.meta.length → ¬ is_done t s) ∧
    (∀ n : ℕ, (progressRun len n).fired ≤ 1) ∧
    (0 ≤ len → ∀ n : ℕ,
      ((n : ℚ) ≤ len → (progressRun len n).fired = 0) ∧
      ((n : ℚ) > len → (progressRun len n).fired = 1)) := by
  refine ⟨?_, ?_, fun s => rfl, rfl, ?_, ?_, ?_⟩
  · intro s hs
    unfold progressTick
    rw [hs]
    simp only [if_true]
    constructor
    · intro h
      by_contra hc
      rw [if_neg ?_] at h
      · simp at h
      · push_cast at hc ⊢
        simpa using hc
    · intro h
      rw [if_pos ?_]
      · rfl
      · push_cast at h ⊢
        simpa using h
  · intro s hs h
    unfold progressTick
    rw [hs]
    simp only [if_true]
    rw [if_pos ?_]
    · push_cast at h ⊢
      simpa using h
  · intro t s heq
    unfold is_done
    rw [heq]
    exact lt_irrefl _
  · intro n
    exact (progressRun_fired_inv len n).2
  · intro hlen n
    refine ⟨fun h => ?_, fun h => ((progressRun_timeline hlen n).2 h).1⟩
    rw [(progressRun_timeline hlen n).1 h]

/-- Witness for C4 at the spec's concrete boundary, a 5.0-second track:
after 5 unpaused seconds nothing has fired (elapsed = duration is not
enough, the comparison is strict), after 6 it has fired exactly once. -/
theorem C4_auto_advance_strict_once_same_as_skip_witness :
    (0 : ℚ) ≤ 5 ∧ ((5 : ℕ) : ℚ) ≤ 5 ∧ ((6 : ℕ) : ℚ) > 5 ∧
    (progressRun 5 5).fired = 0 ∧ (progressRun 5 6).fired = 1 ∧
    ((⟨5, true, 0⟩ : Prog).alive = true ∧
      (((⟨5, true, 0⟩ : Prog).time_elapsed + 1 : ℕ) : ℚ) > 5 ∧
      progressTick 5 (⟨5, true, 0⟩ : Prog) =
        play_next (⟨6, true, 1⟩ : Prog)) ∧
    ((progressTick 5 (⟨5, true, 0⟩ : Prog)).fired =
      (⟨5, true, 0⟩ : Prog).fired + 1 ↔
      (((⟨5, true, 0⟩ : Prog).time_elapsed + 1 : ℕ) : ℚ) > 5) ∧
    (time_played 5 (play 0 (mkSong ⟨"a", none, none, none, none, 5⟩
        false 0)) = (play 0 (mkSong ⟨"a", none, none, none, none, 5⟩
        false 0)).meta.length ∧
      ¬ is_done 5 (play 0 (mkSong ⟨"a", none, none, none, none, 5⟩
        false 0))) :=
  ⟨by norm_num, by norm_num, by norm_num,
    (((C4_auto_advance_strict_once_same_as_skip 5).2.2.2.2.2.2
      (by norm_num)) 5).1 (by norm_num),
    (((C4_auto_advance_strict_once_same_as_skip 5).2.2.2.2.2.2
      (by norm_num)) 6).2 (by norm_num),
    ⟨rfl, by norm_num,
      (C4_auto_advance_strict_once_same_as_skip 5).2.1 ⟨5, true, 0⟩ rfl
        (by norm_num)⟩,
    (C4_auto_advance_strict_once_same_as_skip 5).1 ⟨5, true, 0⟩ rfl,
    ⟨by norm_num [time_played, play, mkSong],
      (C4_auto_advance_strict_once_same_as_skip 5).2.2.2.2.1 5
        (play 0 (mkSong ⟨"a", none, none, none, none, 5⟩ false 0))
        (by norm_num [time_played, play, mkSong])⟩⟩

/-! ### Favourite toggling (C7) -/

theorem setFavRow_overwrite (p : String) (v' v : Bool) (r : Row) :
    setFavRow p v (setFavRow p v' r) = setFavRow p v r := by
  by_cases hp : r.path = p <;> simp [setFavRow, hp]

/-- The `UPDATE favourite` twice with the same target overwrites: only the
last written value remains. -/
theorem setFavourite_overwrite (cat : List Row) (p : String) (v' v : Bool) :
    setFavourite (setFavourite cat p v') p v = setFavourite cat p v := by
  unfold setFavourite
  rw [List.map_map]
  apply map_ext_mem
  intro r _
  exact setFavRow_overwrite p v' v r

/-- Writing the value the store already holds for the path changes
nothing. -/
theorem setFavourite_sync_id {cat : List Row} {p : String} {v : Bool}
    (h : ∀ r ∈ cat, r.path = p → r.favourite = v) :
    setFavourite cat p v = cat := by
  unfold setFavourite
  apply map_fix_eq
  intro r hr
  unfold setFavRow
  by_cases hp : r.path = p
  · rw [if_pos hp, ← h r hr hp]
  · rw [if_neg hp]

/-- After the write, the store holds the written value at the path. -/
theorem setFavourite_agree (cat : List Row) (p : String) (v : Bool) :
    ∀ r' ∈ setFavourite cat p v, r'.path = p → r'.favourite = v := by
  intro r' hr' hpath
  obtain ⟨r, _, rfl⟩ := List.mem_map.mp hr'
  unfold setFavRow at hpath ⊢
  by_cases hp : r.path = p
  · rw [if_pos hp]
  · rw [if_neg hp] at hpath ⊢
    exact absurd hpath hp

/-- C7: starting from a cache in sync with the store, a single favourite
toggle (both song.py's `toggle_favourite` and player.py's `favourite`)
writes the negated cache value to the store and sets the cache to the
same value, so cache and store agree; toggling twice returns cache AND
store to exactly their original values; and the underlying favourite
write for a fixed value is idempotent. -/
theorem C7_favourite_toggle_round_trip (s : Song) (cat : List Row)
    (hsync : ∀ r ∈ cat, r.path = s.meta.path → r.favourite = s.fav) :
    (toggle_favourite s cat).1.fav = !s.fav ∧
    (∀ r ∈ (toggle_favourite s cat).2, r.path = s.meta.path →
      r.favourite = !s.fav) ∧
    (toggle_favourite (toggle_favourite s cat).1
      (toggle_favourite s cat).2).1.fav = s.fav ∧
    (toggle_favourite (toggle_favourite s cat).1
      (toggle_favourite s cat).2).2 = cat ∧
    (player_favourite s.fav s.meta.path cat).1 = !s.fav ∧
    (∀ r ∈ (player_favourite s.fav s.meta.path cat).2,
      r.path = s.meta.path → r.favourite = !s.fav) ∧
    (player_favourite (player_favourite s.fav s.meta.path cat).1
      s.meta.path (player_favourite s.fav s.meta.path cat).2).2 = cat ∧
    (∀ (c : List Row) (p : String) (v : Bool),
      setFavourite (setFavourite c p v) p v = setFavourite c p v) := by
  refine ⟨rfl, ?_, by simp [toggle_favourite], ?_, rfl, ?_, ?_,
    fun c p v => setFavourite_overwrite c p v v⟩
  · exact setFavourite_agree cat s.meta.path (!s.fav)
  · show setFavourite (setFavourite cat s.meta.path (!s.fav)) s.meta.path
      (!(!s.fav)) = cat
    rw [Bool.not_not, setFavourite_overwrite]
    exact setFavourite_sync_id hsync
  · exact setFavourite_agree cat s.meta.path (!s.fav)
  · show setFavourite (setFavourite cat s.meta.path (!s.fav)) s.meta.path
      (!(!s.fav)) = cat
    rw [Bool.not_not, setFavourite_overwrite]
    exact setFavourite_sync_id hsync

/-- Witness for C7 on the concrete catalogue, with the current song "a"
(cache `false`, in sync with the store): double toggle restores the
store. -/
theorem C7_favourite_toggle_round_trip_witness :
    (∀ r ∈ catAB, r.path = (mkSong (metaOf rowA) false 0).meta.path →
      r.favourite = (mkSong (metaOf rowA) false 0).fav) ∧
    (toggle_favourite
      (toggle_favourite (mkSong (metaOf rowA) false 0) catAB).1
      (toggle_favourite (mkSong (metaOf rowA) false 0) catAB).2).2 = catAB ∧
    ({ rowA with favourite := true } ∈
        (toggle_favourite (mkSong (metaOf rowA) false 0) catAB).2 ∧
      ({ rowA with favourite := true } : Row).path =
        (mkSong (metaOf rowA) false 0).meta.path ∧
      ({ rowA with favourite := true } : Row).favourite =
        !(mkSong (metaOf rowA) false 0).fav) :=
  ⟨by decide,
    (C7_favourite_toggle_round_trip (mkSong (metaOf rowA) false 0) catAB
      (by decide)).2.2.2.1,
    by decide, by decide,
    (C7_favourite_toggle_round_trip (mkSong (metaOf rowA) false 0) catAB
      (by decide)).2.1 { rowA with favourite := true } (by decide)
      (by decide)⟩

/-! ### Frame conditions (C8) -/

/-- C8: frame conditions of the three write operations. The
`update_db` UPDATE branch rewrites only title, genre, artist, album and
length, never favourite or listen_count; the favourite write changes no
field but favourite and no record but the addressed one; the selection
UPDATE changes no field but listen_count, adds exactly one to the
addressed record and never decreases any count — so among the store
writes of the program, listen_count only increases, and only through the
selection step. -/
theorem C8_frame_conditions :
    (∀ (m : MetaData) (r : Row),
      (updRow m r).favourite = r.favourite ∧
      (updRow m r).listen_count = r.listen_count ∧
      (updRow m r).path = r.path) ∧
    (∀ (p : String) (v : Bool) (r : Row),
      (setFavRow p v r).path = r.path ∧
      (setFavRow p v r).title = r.title ∧
      (setFavRow p v r).genre = r.genre ∧
      (setFavRow p v r).artist = r.artist ∧
      (setFavRow p v r).album = r.album ∧
      (setFavRow p v r).length = r.length ∧
      (setFavRow p v r).listen_count = r.listen_count ∧
      (r.path ≠ p → setFavRow p v r = r)) ∧
    (∀ (p : String) (r : Row),
      (incRow p r).path = r.path ∧
      (incRow p r).title = r.title ∧
      (incRow p r).genre = r.genre ∧
      (incRow p r).artist = r.artist ∧
      (incRow p r).album = r.album ∧
      (incRow p r).length = r.length ∧
      (incRow p r).favourite = r.favourite ∧
      r.listen_count ≤ (incRow p r).listen_count ∧
      (r.path = p → (incRow p r).listen_count = r.listen_count + 1) ∧
      (r.path ≠ p → incRow p r = r)) ∧
    (∀ (cat : List Row) (p : String) (v : Bool),
      (setFavourite cat p v).map Row.listen_count =
        cat.map Row.listen_count) ∧
    (∀ (cat : List Row) (m : MetaData),
      (cat.map (updRow m)).map Row.listen_count =
        cat.map Row.listen_count) := by
  refine ⟨?_, ?_, ?_, ?_, ?_⟩
  · intro m r
    by_cases hp : r.path = m.path <;> simp [updRow, hp]
  · intro p v r
    by_cases hp : r.path = p <;> simp [setFavRow, hp]
  · intro p r
    by_cases hp : r.path = p <;> simp [incRow, hp]
  · intro cat p v
    unfold setFavourite
    rw [List.map_map]
    apply map_ext_mem
    intro r _
    by_cases hp : r.path = p <;> simp [setFavRow, hp]
  · intro cat m
    rw [List.map_map]
    apply map_ext_mem
    intro r _
    by_cases hp : r.path = m.path <;> simp [updRow, hp]

/-- Witness for C8: the hypothetical parts instantiated on concrete rows:
row "b" is untouched by a favourite write addressed to "a", and the
selection increment addressed to "a" adds exactly one there. -/
theorem C8_frame_conditions_witness :
    rowB.path ≠ rowA.path ∧ setFavRow rowA.path true rowB = rowB ∧
    rowA.path = rowA.path ∧
    (incRow rowA.path rowA).listen_count = rowA.listen_count + 1 :=
  ⟨by decide,
    (C8_frame_conditions.2.1 rowA.path true rowB).2.2.2.2.2.2.2 (by decide),
    rfl,
    (C8_frame_conditions.2.2.1 rowA.path rowA).2.2.2.2.2.2.2.2.1 rfl⟩

/-! ### Ingestion invariant (C9) -/

/-- The spec-modelled ffmpeg probe only produces nonnegative durations:
hours, minutes and seconds are parsed naturals and the fraction is a
nonnegative decimal part. -/
theorem ffmpeg_duration_nonneg {parsed : Option (ℕ × ℕ × ℕ × ℚ)}
    (h : ∀ x ∈ parsed, 0 ≤ x.2.2.2) :
    ∀ q, get_ffmpeg_duration parsed = some q → 0 ≤ q := by
  intro q hq
  cases parsed with
  | none => simp [get_ffmpeg_duration] at hq
  | some x =>
    simp [get_ffmpeg_duration] at hq
    have hx : 0 ≤ x.2.2.2 := h x (by simp)
    have hsum : 0 ≤ (x.1 * 3600 + x.2.1 * 60 + x.2.2.1 : ℚ) := by positivity
    rw [← hq]
    linarith

/-- A truthy optional float is a nonzero value. -/
theorem pyTruthy_iff (o : Option ℚ) :
    pyTruthy o = true ↔ ∃ q, o = some q ∧ q ≠ 0 := by
  cases o <;> simp [pyTruthy]

/-- The `MetaData.from_path` returns metadata exactly when one of the probes
produced a nonzero length, Python's `or` preferring the tag probe. -/
theorem from_path_eq_some {path : String} {tagsPresent : Bool}
    {infoLength : ℚ} {title genre artist album : Option String}
    {ffm : Option ℚ} {m : MetaData} :
    from_path path tagsPresent infoLength title genre artist album ffm
      = some m ↔
    ∃ q, (if pyTruthy (if tagsPresent then some infoLength else none)
        then (if tagsPresent then some infoLength else none)
        else ffm) = some q ∧ q ≠ 0 ∧
      m = ⟨path, title, genre, artist, album, q⟩ := by
  unfold from_path
  split
  next heq =>
    constructor
    · intro h
      cases h
    · rintro ⟨q, hq, _, _⟩
      rw [heq] at hq
      cases hq
  next q heq =>
    by_cases hq0 : q = 0
    · rw [if_pos hq0]
      constructor
      · intro h
        cases h
      · rintro ⟨q', hq', hne, _⟩
        rw [heq] at hq'
        have hqq := Option.some.inj hq'
        exact absurd (by rw [← hqq]; exact hq0) hne
    · rw [if_neg hq0]
      constructor
      · intro h
        exact ⟨q, heq, hq0, (Option.some.inj h).symm⟩
      · rintro ⟨q', hq', _, hm⟩
        rw [heq] at hq'
        have hqq := Option.some.inj hq'
        rw [hm, ← hqq]

/-- C9: a track with no determinable duration is never persisted. If
neither the tag probe's `info.length` nor the ffmpeg fallback yields a
nonzero length, `MetaData.from_path` returns `None`; `update_db` skips a
`None` track, leaving the catalogue unchanged; any metadata it does
produce has positive length (probes report nonnegative durations and
zero is falsy); hence every record the update loop inserts or rewrites
carries a positive duration. -/
theorem C9_no_duration_never_persisted (cat : List Row) (path : String)
    (tagsPresent : Bool) (infoLength : ℚ)
    (title genre artist album : Option String)
    (parsed : Option (ℕ × ℕ × ℕ × ℚ))
    (hinfo : 0 ≤ infoLength) (hfrac : ∀ x ∈ parsed, 0 ≤ x.2.2.2) :
    (updateDbStep cat none = cat) ∧
    ((tagsPresent = true → infoLength = 0) →
      (∀ q, get_ffmpeg_duration parsed = some q → q = 0) →
      from_path path tagsPresent infoLength title genre artist album
        (get_ffmpeg_duration parsed) = none) ∧
    (∀ m, from_path path tagsPresent infoLength title genre artist album
        (get_ffmpeg_duration parsed) = some m → 0 < m.length) ∧
    (∀ r ∈ updateDbStep cat
        (from_path path tagsPresent infoLength title genre artist album
          (get_ffmpeg_duration parsed)),
      r ∈ cat ∨ 0 < r.length) := by
  have hffm := ffmpeg_duration_nonneg hfrac
  have hpos : ∀ m, from_path path tagsPresent infoLength title genre artist
      album (get_ffmpeg_duration parsed) = some m → 0 < m.length := by
    intro m hm
    obtain ⟨q, hscrut, hq0, hmval⟩ := from_path_eq_some.mp hm
    have hqpos : 0 ≤ q := by
      by_cases hb : pyTruthy (if tagsPresent then some infoLength
          else none) = true
      · rw [if_pos hb] at hscrut
        cases htags : tagsPresent with
        | false => rw [htags] at hscrut; simp at hscrut
        | true =>
          rw [htags] at hscrut
          simp only [if_true] at hscrut
          have := Option.some.inj hscrut
          rw [← this]
          exact hinfo
      · rw [if_neg hb] at hscrut
        exact hffm q hscrut
    rw [hmval]
    exact lt_of_le_of_ne hqpos (Ne.symm hq0)
  refine ⟨rfl, ?_, hpos, ?_⟩
  · intro h1 h2
    cases hmd : from_path path tagsPresent infoLength title genre artist
        album (get_ffmpeg_duration parsed) with
    | none => rfl
    | some m =>
      exfalso
      obtain ⟨q, hscrut, hq0, _⟩ := from_path_eq_some.mp hmd
      by_cases hb : pyTruthy (if tagsPresent then some infoLength
          else none) = true
      · rw [if_pos hb] at hscrut
        obtain ⟨q', hq', hq'0⟩ := (pyTruthy_iff _).mp hb
        cases htags : tagsPresent with
        | false => rw [htags] at hq'; cases hq'
        | true =>
          rw [htags] at hq'
          have h0 : infoLength = q' := Option.some.inj hq'
          exact absurd (by rw [← h0]; exact h1 htags) hq'0
      · rw [if_neg hb] at hscrut
        exact hq0 (h2 q hscrut)
  · intro r hr
    cases hmd : from_path path tagsPresent infoLength title genre artist
        album (get_ffmpeg_duration parsed) with
    | none =>
      rw [hmd] at hr
      exact Or.inl hr
    | some m =>
      have hml := hpos m hmd
      rw [hmd] at hr
      have hsome : updateDbStep cat (some m) =
          if cat.any (fun x => x.path = m.path) then cat.map (updRow m)
          else cat ++ [newRow m] := rfl
      rw [hsome] at hr
      by_cases hany : cat.any (fun x => x.path = m.path) = true
      · rw [if_pos hany] at hr
        obtain ⟨r₀, hr₀, rfl⟩ := List.mem_map.mp hr
        unfold updRow
        by_cases hp : r₀.path = m.path
        · rw [if_pos hp]
          exact Or.inr hml
        · rw [if_neg hp]
          exact Or.inl hr₀
      · rw [if_neg hany] at hr
        rcases List.mem_append.mp hr with hin | hin
        · exact Or.inl hin
        · rcases List.mem_singleton.mp hin with rfl
          exact Or.inr hml

/-- Witness for C9: tags absent, ffmpeg fallback parses 0:00:07 — the
resulting metadata is persisted into the empty catalogue with positive
duration. -/
theorem C9_no_duration_never_persisted_witness :
    (0 : ℚ) ≤ 0 ∧
    (∀ r ∈ updateDbStep []
        (from_path "p" false 0 none none none none
          (get_ffmpeg_duration (some (0, 0, 7, 0)))),
      r ∈ ([] : List Row) ∨ 0 < r.length) ∧
    (from_path "p" true 0 none none none none
        (get_ffmpeg_duration none) = none) ∧
    (0 : ℚ) <
      (⟨"p", none, none, none, none, 7⟩ : MetaData).length :=
  ⟨le_refl 0,
    (C9_no_duration_never_persisted [] "p" false 0 none none none none
      (some (0, 0, 7, 0)) (le_refl 0) (by simp)).2.2.2,
    (C9_no_duration_never_persisted [] "p" true 0 none none none none
      none (le_refl 0) (by simp)).2.1 (fun _ => rfl) (by simp [get_ffmpeg_duration]),
    (C9_no_duration_never_persisted [] "p" false 0 none none none none
      (some (0, 0, 7, 0)) (le_refl 0) (by simp)).2.2.1
      ⟨"p", none, none, none, none, 7⟩
      (by simp [from_path, get_ffmpeg_duration, pyTruthy])⟩

end Musicview
